import Mathlib

/-!
Verification of the CSV cleaning / wrangling / EDA pipeline in `src/main.py`.

The pipeline works on a pandas `DataFrame` with the seven columns
`Age, Gender, Sales, Profit, Date, Category, Discount`.  We embed a table
as a `List Row`.  A raw numeric cell (`NCell`) is either a value that
coerces to a number (`num`), a non-coercible entry (`text`), or a missing
value / NaN (`missing`).  A raw date cell (`DCell`) is a parseable date
(`date`, as an integer day number, whose order is chronological order),
an unparseable entry (`bad`), or missing (NaT).  Textual columns
(`Gender`, `Category`) are `Option String`, `none` standing for NaN.

Machine floats only carry exact small rationals in the data sets of
interest, so numeric values are `ℚ`; NaN is represented by
`NCell.missing`, and NaN-aware comparisons are modelled explicitly where
the code relies on them (a comparison against NaN is false).
Operations that raise in Python (`pd.to_numeric` without `errors`,
`mode()[0]` on an empty column) return `none`, so the cleaning function
returns `Option (List Row)`.
-/

namespace CsvClean

inductive NCell where
  | num (q : ℚ)
  | text (s : String)
  | missing
deriving DecidableEq, Repr

inductive DCell where
  | date (d : ℤ)
  | bad (s : String)
  | missing
deriving DecidableEq, Repr

def NCell.val? : NCell → Option ℚ
  | NCell.num q => some q
  | _ => none

def NCell.isText : NCell → Bool
  | NCell.text _ => true
  | _ => false

def NCell.isMissing : NCell → Bool
  | NCell.missing => true
  | _ => false

def NCell.isNum : NCell → Bool
  | NCell.num _ => true
  | _ => false

def DCell.day? : DCell → Option ℤ
  | DCell.date d => some d
  | _ => none

def DCell.isValid : DCell → Bool
  | DCell.date _ => true
  | _ => false

def DCell.isMissing : DCell → Bool
  | DCell.missing => true
  | _ => false

structure Row where
  age : NCell
  gender : Option String
  sales : NCell
  profit : NCell
  date : DCell
  category : Option String
  discount : NCell
deriving DecidableEq, Repr

/-! ### Statistical helpers (numpy / pandas semantics) -/

/-- Median as `np.median` computes it over a list of non-missing values: sort, take the middle
element, or the mean of the two middle elements; `none` on an empty list
(numpy returns NaN there). -/
def median (l : List ℚ) : Option ℚ :=
  match l.insertionSort (· ≤ ·) with
  | [] => none
  | s@(_ :: _) =>
    let n := s.length
    if n % 2 = 1 then some (s.getD (n / 2) 0)
    else some ((s.getD (n / 2 - 1) 0 + s.getD (n / 2) 0) / 2)

/-- Quantile as `Series.quantile q` computes it with the default linear interpolation, over the
non-missing values: with sorted values `s_0 ≤ … ≤ s_(n-1)` and
`h = q*(n-1)`, the result is `s_⌊h⌋ + (h - ⌊h⌋) * (s_(⌊h⌋+1) - s_⌊h⌋)`;
`none` on an empty list (pandas returns NaN there). -/
def quantile (l : List ℚ) (q : ℚ) : Option ℚ :=
  match l.insertionSort (· ≤ ·) with
  | [] => none
  | s@(_ :: _) =>
    let n := s.length
    let h : ℚ := q * ((n : ℚ) - 1)
    let i : ℕ := h.floor.toNat
    let a := s.getD i 0
    let b := s.getD (i + 1) a
    some (a + (h - (h.floor : ℚ)) * (b - a))

/-- Smallest element of a list, `none` when empty. -/
def listMin : List ℤ → Option ℤ
  | [] => none
  | d :: ds => some (ds.foldl min d)

/-- The largest multiplicity occurring in `l`. -/
def maxCount (l : List ℤ) : ℕ :=
  (l.map fun d => l.count d).foldr max 0

/-- The maximally frequent elements of `l` (with repetitions). -/
def modes (l : List ℤ) : List ℤ :=
  l.filter fun d => l.count d = maxCount l

/-- Modal value as `Series.mode()[0]` returns it: among the most frequent values, the smallest
(pandas returns the modes sorted ascending and `[0]` takes the head);
`none` when the list is empty (there `mode()` is empty and `[0]` raises). -/
def modeDate (l : List ℤ) : Option ℤ :=
  listMin (modes l)

/-! ### The cleaning pipeline, `readCsvAndCleanData` -/

/-- Duplicate removal (`drop_duplicates`): keep the first occurrence of every row. -/
def dropDupAux : List Row → List Row → List Row
  | [], _ => []
  | r :: rs, seen => if r ∈ seen then dropDupAux rs seen else r :: dropDupAux rs (r :: seen)

def dropDuplicates (t : List Row) : List Row :=
  dropDupAux t []

/-- Replace a missing cell by `m` (`fillna(m)` with a non-NaN `m`). -/
def fillNum (c : NCell) (m : ℚ) : NCell :=
  match c with
  | NCell.missing => NCell.num m
  | c => c

/-- Fill as `fillna(v)` where `v` may itself be NaN (`none`), in which case the
fill is a no-op. -/
def fillWith (m : Option ℚ) (c : NCell) : NCell :=
  match m with
  | some q => fillNum c q
  | none => c

/-- Coercion as `to_numeric(x, errors='coerce')` on one cell: non-coercible → NaN. -/
def coerceNum (c : NCell) : NCell :=
  match c with
  | NCell.text _ => NCell.missing
  | c => c

def agesOf (t : List Row) : List ℚ :=
  t.filterMap fun r => (r.age).val?

/-- Age: `pd.to_numeric` without `errors='coerce'` — the whole run fails
if any entry is non-coercible — then fill missing entries with the
median of the non-missing ones. -/
def ageStep (t : List Row) : Option (List Row) :=
  if t.any fun r => (r.age).isText then none
  else some (t.map fun r => { r with age := fillWith (median (agesOf t)) r.age })

/-- Gender: NaN → "Other", "" → "Other". -/
def genderFix (g : Option String) : Option String :=
  match g with
  | none => some "Other"
  | some s => if s = "" then some "Other" else some s

def genderStep (t : List Row) : List Row :=
  t.map fun r => { r with gender := genderFix r.gender }

def salesOf (t : List Row) : List ℚ :=
  t.filterMap fun r => (r.sales).val?

/-- Sales: coercing conversion, then fill missing with the median. -/
def salesStep (t : List Row) : List Row :=
  let t1 := t.map fun r => { r with sales := coerceNum r.sales }
  t1.map fun r => { r with sales := fillWith (median (salesOf t1)) r.sales }

def profitsOf (t : List Row) : List ℚ :=
  t.filterMap fun r => (r.profit).val?

/-- Profit: identical rule to Sales. -/
def profitStep (t : List Row) : List Row :=
  let t1 := t.map fun r => { r with profit := coerceNum r.profit }
  t1.map fun r => { r with profit := fillWith (median (profitsOf t1)) r.profit }

/-- Coercion as `to_datetime(x, errors='coerce')` on one cell. -/
def coerceDate (r : Row) : Row :=
  { r with date := match r.date with
                   | DCell.bad _ => DCell.missing
                   | d => d }

def validDates (t : List Row) : List ℤ :=
  t.filterMap fun r => (r.date).day?

def fillDate (m : ℤ) (r : Row) : Row :=
  { r with date := match r.date with
                   | DCell.missing => DCell.date m
                   | d => d }

/-- Date: coercing datetime conversion, then fill missing entries with
`mode()[0]` of the column; fails (KeyError) when no valid date exists. -/
def dateStep (t : List Row) : Option (List Row) :=
  let t1 := t.map coerceDate
  match modeDate (validDates t1) with
  | none => none
  | some m => some (t1.map (fillDate m))

/-- Category: `dropna(subset=["Category"])`. -/
def categoryStep (t : List Row) : List Row :=
  t.filter fun r => (r.category).isSome

/-- Discount: coercing conversion, then fill missing with 0. -/
def discountStep (t : List Row) : List Row :=
  t.map fun r => { r with discount := fillNum (coerceNum r.discount) 0 }

def salesVals (t : List Row) : List ℚ :=
  t.filterMap fun r => (r.sales).val?

/-- The IQR fence `(lowerB, upperB)` over the Sales column;
`none` when the quantiles are NaN (empty non-missing Sales). -/
def fenceBounds (t : List Row) : Option (ℚ × ℚ) :=
  match quantile (salesVals t) (1/4), quantile (salesVals t) (3/4) with
  | some q1, some q3 => some (q1 - 3/2 * (q3 - q1), q3 + 3/2 * (q3 - q1))
  | _, _ => none

/-- Row predicate `~((Sales < lowerB) | (Sales > upperB))`; a comparison
against NaN is false, so a missing Sales is kept. -/
def fenceKeep (lo hi : ℚ) (c : NCell) : Bool :=
  match c with
  | NCell.num q => !(decide (q < lo) || decide (hi < q))
  | _ => true

/-- Outlier removal: keep only rows whose Sales is inside the fence;
when the bounds are NaN every row is kept (NaN comparisons are false). -/
def fenceStep (t : List Row) : List Row :=
  match fenceBounds t with
  | some (lo, hi) => t.filter fun r => fenceKeep lo hi r.sales
  | none => t

/-- The pipeline of `readCsvAndCleanData` up to (not including) the
outlier fence. -/
def cleanedBeforeFence (t : List Row) : Option (List Row) :=
  (ageStep (dropDuplicates t)).bind fun t2 =>
    (dateStep (profitStep (salesStep (genderStep t2)))).map fun t6 =>
      discountStep (categoryStep t6)

/-- The whole cleaner `readCsvAndCleanData`, on the already-parsed input table. -/
def readCsvAndCleanData (t : List Row) : Option (List Row) :=
  (cleanedBeforeFence t).map fenceStep

/-! ### Stage 2, `performDataWrangling` -/

/-- Elementwise `Profit / Sales`.  A missing operand gives NaN.  (For
`Sales = 0` the floating-point source produces an infinity; the theorems
below only speak about rows with non-zero Sales, where the rational
quotient is the exact value.) -/
def cellDiv (a b : NCell) : NCell :=
  match a, b with
  | NCell.num p, NCell.num s => NCell.num (p / s)
  | _, _ => NCell.missing

/-- Age classification `lambda x: "Mature" if x >= 25 else "Not Mature"`; a NaN age compares
false, giving "Not Mature". -/
def matureOf (c : NCell) : String :=
  match c with
  | NCell.num q => if 25 ≤ q then "Mature" else "Not Mature"
  | _ => "Not Mature"

/-- A wrangled row: the original row plus the two derived columns. -/
structure WRow where
  core : Row
  profitMargin : NCell
  matureStatus : String
deriving DecidableEq, Repr

def performDataWrangling (t : List Row) : List WRow :=
  t.map fun r => ⟨r, cellDiv r.profit r.sales, matureOf r.age⟩

/-- The Discount value of a row as used by `groupby(...).sum()`
(missing entries contribute nothing, i.e. 0). -/
def discountVal (r : Row) : ℚ :=
  ((r.discount).val?).getD 0

/-- Grouping `cleaned_df.groupby("Category")["Discount"].sum().reset_index()`:
one row per distinct non-missing Category, keys sorted ascending, value
the sum of the group's Discounts.  This is the table `printed` by
`performDataWrangling` (adding the Profit Margin column beforehand does
not change Category or Discount). -/
def discountByProducts (t : List Row) : List (String × ℚ) :=
  let cats := (t.filterMap fun r => r.category).dedup
  (cats.insertionSort (· ≤ ·)).map fun c =>
    (c, ((t.filter fun r => r.category = some c).map discountVal).sum)

/-! ### Stage 3, `performEDA` -/

def mean (l : List ℚ) : ℚ :=
  l.sum / l.length

/-- Rounding to two decimal places, `.round(2)`. -/
def round2 (x : ℚ) : ℚ :=
  ((round (x * 100) : ℤ) : ℚ) / 100

def WRow.salesQ (r : WRow) : ℚ :=
  ((r.core.sales).val?).getD 0

/-- Pivot `pivot_table(values="Sales", index="Category", columns="Discount",
aggfunc="mean").round(2)`: mean Sales per (Category, Discount) cell. -/
def pivotTable (t : List WRow) : List ((String × ℚ) × ℚ) :=
  ((t.filterMap fun r => (r.core.category).map fun c => (c, discountVal r.core)).dedup).map
    fun k => (k, round2 (mean (((t.filter fun r =>
      (r.core.category == some k.1) && (discountVal r.core == k.2)).map WRow.salesQ))))

/-- Per-category means, `groupby("Category")[["Discount","Sales"]].mean().round(2)`. -/
def avgGrouped (t : List WRow) : List (String × (ℚ × ℚ)) :=
  ((t.filterMap fun r => r.core.category).dedup).map fun c =>
    let g := t.filter fun r => r.core.category == some c
    (c, (round2 (mean (g.map fun r => discountVal r.core)),
         round2 (mean (g.map WRow.salesQ))))

/-- What `performEDA` prints / plots: all of it is computed by reading
the table; none of the pandas calls used (`describe`, `corr`,
`pivot_table`, `groupby`, the seaborn/matplotlib calls) writes to the
frame. -/
structure EDAReport where
  corrPairs : List (ℚ × ℚ)
  pivot : List ((String × ℚ) × ℚ)
  averages : List (String × (ℚ × ℚ))
deriving Repr

/-- EDA stage `performEDA`: computes the report and leaves the table as it found
it; the second component is the state of the table afterwards. -/
def performEDA (t : List WRow) : EDAReport × List WRow :=
  (⟨t.map fun r => (r.salesQ, discountVal r.core), pivotTable t, avgGrouped t⟩, t)

/-- The `__main__` block: clean, wrangle, run EDA, and serialize the
table the program holds at the end (`cleaned.to_csv`). -/
def mainSerialized (input : List Row) : Option (List WRow) :=
  (readCsvAndCleanData input).map fun c =>
    (performEDA (performDataWrangling c)).2

/-! ### The modal-value selection the specification describes

The specification says ties between equally frequent dates are broken
"by first-encountered".  This definition follows the specification's
words, to be compared with `modeDate` (which models what
`Series.mode()[0]` actually returns). -/

def modeFirstEncountered (l : List ℤ) : Option ℤ :=
  match l with
  | [] => none
  | d :: _ => some (l.foldl (fun b e => if l.count e > l.count b then e else b) d)

/-! ### Concrete tables used to evaluate the pipeline -/

def mkRow (a : NCell) (g : Option String) (s p : NCell) (d : DCell)
    (c : Option String) (disc : NCell) : Row :=
  ⟨a, g, s, p, d, c, disc⟩

/-- Nine pairwise-distinct fully-clean rows whose Sales column is
`[0,0,0,0,0,0,10,10,50]`. -/
def exFence : List Row :=
  [mkRow (NCell.num 1) (some "F") (NCell.num 0) (NCell.num 1) (DCell.date 0) (some "A") (NCell.num 0),
   mkRow (NCell.num 2) (some "F") (NCell.num 0) (NCell.num 1) (DCell.date 0) (some "A") (NCell.num 0),
   mkRow (NCell.num 3) (some "F") (NCell.num 0) (NCell.num 1) (DCell.date 0) (some "A") (NCell.num 0),
   mkRow (NCell.num 4) (some "F") (NCell.num 0) (NCell.num 1) (DCell.date 0) (some "A") (NCell.num 0),
   mkRow (NCell.num 5) (some "F") (NCell.num 0) (NCell.num 1) (DCell.date 0) (some "A") (NCell.num 0),
   mkRow (NCell.num 6) (some "F") (NCell.num 0) (NCell.num 1) (DCell.date 0) (some "A") (NCell.num 0),
   mkRow (NCell.num 7) (some "F") (NCell.num 10) (NCell.num 1) (DCell.date 0) (some "A") (NCell.num 0),
   mkRow (NCell.num 8) (some "F") (NCell.num 10) (NCell.num 1) (DCell.date 0) (some "A") (NCell.num 0),
   mkRow (NCell.num 9) (some "F") (NCell.num 50) (NCell.num 1) (DCell.date 0) (some "A") (NCell.num 0)]

/-- What the cleaner returns on `exFence`: the Sales-50 row is fenced
out (first-pass fence `[-15, 25]`), the other eight rows survive. -/
def outFence : List Row :=
  [mkRow (NCell.num 1) (some "F") (NCell.num 0) (NCell.num 1) (DCell.date 0) (some "A") (NCell.num 0),
   mkRow (NCell.num 2) (some "F") (NCell.num 0) (NCell.num 1) (DCell.date 0) (some "A") (NCell.num 0),
   mkRow (NCell.num 3) (some "F") (NCell.num 0) (NCell.num 1) (DCell.date 0) (some "A") (NCell.num 0),
   mkRow (NCell.num 4) (some "F") (NCell.num 0) (NCell.num 1) (DCell.date 0) (some "A") (NCell.num 0),
   mkRow (NCell.num 5) (some "F") (NCell.num 0) (NCell.num 1) (DCell.date 0) (some "A") (NCell.num 0),
   mkRow (NCell.num 6) (some "F") (NCell.num 0) (NCell.num 1) (DCell.date 0) (some "A") (NCell.num 0),
   mkRow (NCell.num 7) (some "F") (NCell.num 10) (NCell.num 1) (DCell.date 0) (some "A") (NCell.num 0),
   mkRow (NCell.num 8) (some "F") (NCell.num 10) (NCell.num 1) (DCell.date 0) (some "A") (NCell.num 0)]

/-- What the cleaner returns when run again on `outFence`: the refitted
fence is `[-3.75, 6.25]`, so the two Sales-10 rows are dropped as well. -/
def outFence2 : List Row :=
  [mkRow (NCell.num 1) (some "F") (NCell.num 0) (NCell.num 1) (DCell.date 0) (some "A") (NCell.num 0),
   mkRow (NCell.num 2) (some "F") (NCell.num 0) (NCell.num 1) (DCell.date 0) (some "A") (NCell.num 0),
   mkRow (NCell.num 3) (some "F") (NCell.num 0) (NCell.num 1) (DCell.date 0) (some "A") (NCell.num 0),
   mkRow (NCell.num 4) (some "F") (NCell.num 0) (NCell.num 1) (DCell.date 0) (some "A") (NCell.num 0),
   mkRow (NCell.num 5) (some "F") (NCell.num 0) (NCell.num 1) (DCell.date 0) (some "A") (NCell.num 0),
   mkRow (NCell.num 6) (some "F") (NCell.num 0) (NCell.num 1) (DCell.date 0) (some "A") (NCell.num 0)]

/-- A single row whose Age is missing and whose other fields are clean:
the Age median of an all-missing column is NaN, so the fill is a no-op
and the cleaned table keeps a missing Age. -/
def exMissingAge : List Row :=
  [mkRow NCell.missing (some "F") (NCell.num 5) (NCell.num 1) (DCell.date 0) (some "A") (NCell.num 0)]

def outMissingAge : List Row :=
  [mkRow NCell.missing (some "F") (NCell.num 5) (NCell.num 1) (DCell.date 0) (some "A") (NCell.num 0)]

/-- Distinct rows with Date column `[unparseable, day 20, day 10]`:
the two valid dates are tied, the first-encountered one is day 20, and
`mode()[0]` picks day 10 (the smallest). -/
def exModalTie : List Row :=
  [mkRow (NCell.num 1) (some "F") (NCell.num 5) (NCell.num 1) (DCell.bad "x") (some "A") (NCell.num 0),
   mkRow (NCell.num 2) (some "F") (NCell.num 5) (NCell.num 1) (DCell.date 20) (some "A") (NCell.num 0),
   mkRow (NCell.num 3) (some "F") (NCell.num 5) (NCell.num 1) (DCell.date 10) (some "A") (NCell.num 0)]

def outModalTie : List Row :=
  [mkRow (NCell.num 1) (some "F") (NCell.num 5) (NCell.num 1) (DCell.date 10) (some "A") (NCell.num 0),
   mkRow (NCell.num 2) (some "F") (NCell.num 5) (NCell.num 1) (DCell.date 20) (some "A") (NCell.num 0),
   mkRow (NCell.num 3) (some "F") (NCell.num 5) (NCell.num 1) (DCell.date 10) (some "A") (NCell.num 0)]

/-- A single row whose Age is a non-coercible string: `pd.to_numeric`
without `errors='coerce'` raises, failing the whole run. -/
def exBadAge : List Row :=
  [mkRow (NCell.text "abc") (some "F") (NCell.num 5) (NCell.num 1) (DCell.date 0) (some "A") (NCell.num 0)]

/-! ### Basic lemmas about the helpers -/

theorem map_eq_self_of_mem {α : Type} {f : α → α} :
    ∀ {l : List α}, (∀ x ∈ l, f x = x) → l.map f = l := by
  intro l
  induction l with
  | nil => intro _; rfl
  | cons a t ih =>
    intro h
    simp only [List.map_cons]
    rw [h a (by simp), ih fun x hx => h x (by simp [hx])]

theorem mem_dropDupAux {r : Row} :
    ∀ {l seen : List Row}, r ∈ dropDupAux l seen ↔ r ∈ l ∧ r ∉ seen := by
  intro l
  induction l with
  | nil => intro seen; simp [dropDupAux]
  | cons a t ih =>
    intro seen
    by_cases ha : a ∈ seen
    · rw [dropDupAux, if_pos ha, ih]
      constructor
      · rintro ⟨h1, h2⟩; exact ⟨List.mem_cons_of_mem _ h1, h2⟩
      · rintro ⟨h1, h2⟩
        rcases List.mem_cons.1 h1 with rfl | h1
        · exact absurd ha h2
        · exact ⟨h1, h2⟩
    · rw [dropDupAux, if_neg ha]
      constructor
      · intro h
        rcases List.mem_cons.1 h with rfl | h
        · exact ⟨List.mem_cons_self _ _, ha⟩
        · rcases ih.1 h with ⟨h1, h2⟩
          exact ⟨List.mem_cons_of_mem _ h1, fun hs => h2 (List.mem_cons_of_mem _ hs)⟩
      · rintro ⟨h1, h2⟩
        rcases List.mem_cons.1 h1 with rfl | h1
        · exact List.mem_cons_self _ _
        · by_cases hra : r = a
          · exact hra ▸ List.mem_cons_self _ _
          · exact List.mem_cons_of_mem _ (ih.2 ⟨h1, fun hs => by
              rcases List.mem_cons.1 hs with h | h
              · exact hra h
              · exact h2 h⟩)

theorem dropDupAux_sublist : ∀ (l seen : List Row), List.Sublist (dropDupAux l seen) l := by
  intro l
  induction l with
  | nil => intro seen; exact List.Sublist.refl []
  | cons a t ih =>
    intro seen
    rw [dropDupAux]
    by_cases ha : a ∈ seen
    · rw [if_pos ha]; exact (ih seen).cons a
    · rw [if_neg ha]; exact (ih (a :: seen)).cons₂ a

theorem mem_dropDuplicates {t : List Row} {r : Row} : r ∈ dropDuplicates t ↔ r ∈ t := by
  rw [dropDuplicates, mem_dropDupAux]
  simp

theorem dropDuplicates_sublist (t : List Row) : List.Sublist (dropDuplicates t) t :=
  dropDupAux_sublist t []

theorem dropDuplicates_ne_nil {t : List Row} (h : t ≠ []) : dropDuplicates t ≠ [] := by
  rcases List.exists_mem_of_ne_nil t h with ⟨r, hr⟩
  exact List.ne_nil_of_mem (mem_dropDuplicates.2 hr)

theorem median_eq_none_iff {l : List ℚ} : median l = none ↔ l = [] := by
  constructor
  · intro h
    by_contra hne
    have hlen : (l.insertionSort (· ≤ ·)).length = l.length := List.length_insertionSort _ _
    rw [median] at h
    rcases hs : l.insertionSort (· ≤ ·) with _ | ⟨a, s⟩
    · rw [hs] at hlen
      exact hne (List.length_eq_zero.1 hlen.symm)
    · rw [hs] at h
      dsimp at h
      split at h <;> exact Option.noConfusion h
  · rintro rfl; rfl

theorem median_ne_none {l : List ℚ} (h : l ≠ []) : ∃ m, median l = some m := by
  rcases hm : median l with _ | m
  · exact absurd (median_eq_none_iff.1 hm) h
  · exact ⟨m, rfl⟩

theorem quantile_eq_none_iff {l : List ℚ} {q : ℚ} : quantile l q = none ↔ l = [] := by
  constructor
  · intro h
    by_contra hne
    have hlen : (l.insertionSort (· ≤ ·)).length = l.length := List.length_insertionSort _ _
    rw [quantile] at h
    rcases hs : l.insertionSort (· ≤ ·) with _ | ⟨a, s⟩
    · rw [hs] at hlen
      exact hne (List.length_eq_zero.1 hlen.symm)
    · rw [hs] at h
      exact Option.noConfusion h
  · rintro rfl; rfl

theorem quantile_ne_none {l : List ℚ} {q : ℚ} (h : l ≠ []) : ∃ m, quantile l q = some m := by
  rcases hm : quantile l q with _ | m
  · exact absurd (quantile_eq_none_iff.1 hm) h
  · exact ⟨m, rfl⟩

theorem fenceBounds_ne_none {t : List Row} (h : salesVals t ≠ []) :
    ∃ lo hi, fenceBounds t = some (lo, hi) := by
  rcases quantile_ne_none (q := 1/4) h with ⟨q1, h1⟩
  rcases quantile_ne_none (q := 3/4) h with ⟨q3, h3⟩
  exact ⟨_, _, by rw [fenceBounds, h1, h3]⟩

theorem foldl_min_le_init : ∀ (ds : List ℤ) (a : ℤ), ds.foldl min a ≤ a := by
  intro ds
  induction ds with
  | nil => intro a; exact le_refl a
  | cons b ds ih =>
    intro a
    calc (b :: ds).foldl min a = ds.foldl min (min a b) := rfl
    _ ≤ min a b := ih _
    _ ≤ a := min_le_left _ _

theorem foldl_min_le_mem : ∀ (ds : List ℤ) (a d : ℤ), d ∈ ds → ds.foldl min a ≤ d := by
  intro ds
  induction ds with
  | nil => intro a d h; exact absurd h (List.not_mem_nil d)
  | cons b ds ih =>
    intro a d h
    rcases List.mem_cons.1 h with rfl | h
    · calc (d :: ds).foldl min a = ds.foldl min (min a d) := rfl
      _ ≤ min a d := foldl_min_le_init _ _
      _ ≤ d := min_le_right _ _
    · exact ih (min a b) d h

theorem foldl_min_mem : ∀ (ds : List ℤ) (a : ℤ), ds.foldl min a = a ∨ ds.foldl min a ∈ ds := by
  intro ds
  induction ds with
  | nil => intro a; exact Or.inl rfl
  | cons b ds ih =>
    intro a
    rcases ih (min a b) with h | h
    · rcases min_cases a b with ⟨hm, _⟩ | ⟨hm, _⟩
      · exact Or.inl (by rw [List.foldl_cons, h, hm])
      · exact Or.inr (by rw [List.foldl_cons, h, hm]; exact List.mem_cons_self _ _)
    · exact Or.inr (List.mem_cons_of_mem _ h)

theorem listMin_spec {l : List ℤ} {m : ℤ} (h : listMin l = some m) :
    m ∈ l ∧ ∀ d ∈ l, m ≤ d := by
  rcases l with _ | ⟨a, ds⟩
  · exact Option.noConfusion h
  · rw [listMin] at h
    have hm : ds.foldl min a = m := Option.some.inj h
    constructor
    · rcases foldl_min_mem ds a with h' | h'
      · rw [← hm, h']; exact List.mem_cons_self _ _
      · rw [← hm]; exact List.mem_cons_of_mem _ h'
    · intro d hd
      rcases List.mem_cons.1 hd with rfl | hd
      · rw [← hm]; exact foldl_min_le_init _ _
      · rw [← hm]; exact foldl_min_le_mem _ _ _ hd

theorem listMin_ne_none {l : List ℤ} (h : l ≠ []) : ∃ m, listMin l = some m := by
  rcases l with _ | ⟨a, ds⟩
  · exact absurd rfl h
  · exact ⟨_, rfl⟩

theorem le_foldr_max : ∀ {xs : List ℕ} {x : ℕ}, x ∈ xs → x ≤ xs.foldr max 0 := by
  intro xs
  induction xs with
  | nil => intro x h; exact absurd h (List.not_mem_nil x)
  | cons a t ih =>
    intro x h
    rcases List.mem_cons.1 h with rfl | h
    · exact le_max_left _ _
    · exact le_trans (ih h) (le_max_right _ _)

theorem foldr_max_mem_or : ∀ (xs : List ℕ), xs.foldr max 0 ∈ xs ∨ xs.foldr max 0 = 0 := by
  intro xs
  induction xs with
  | nil => exact Or.inr rfl
  | cons a t ih =>
    rcases max_cases a (t.foldr max 0) with ⟨hm, _⟩ | ⟨hm, _⟩
    · exact Or.inl (by rw [List.foldr_cons, hm]; exact List.mem_cons_self _ _)
    · rcases ih with h | h
      · exact Or.inl (by rw [List.foldr_cons, hm]; exact List.mem_cons_of_mem _ h)
      · exact Or.inr (by rw [List.foldr_cons, hm, h])

theorem count_le_maxCount {l : List ℤ} {d : ℤ} (h : d ∈ l) : l.count d ≤ maxCount l :=
  le_foldr_max (List.mem_map_of_mem (fun e => l.count e) h)

theorem maxCount_attained {l : List ℤ} (h : l ≠ []) : ∃ d ∈ l, l.count d = maxCount l := by
  rcases foldr_max_mem_or (l.map fun e => l.count e) with hm | hm
  · rcases List.mem_map.1 hm with ⟨d, hd, hcount⟩
    exact ⟨d, hd, hcount⟩
  · rcases List.exists_mem_of_ne_nil l h with ⟨d, hd⟩
    have h1 : 0 < l.count d := List.count_pos_iff.2 hd
    have h2 := count_le_maxCount hd
    rw [maxCount] at h2
    omega

theorem mem_modes {l : List ℤ} {d : ℤ} :
    d ∈ modes l ↔ d ∈ l ∧ l.count d = maxCount l := by
  simp [modes, List.mem_filter]

theorem modes_ne_nil {l : List ℤ} (h : l ≠ []) : modes l ≠ [] := by
  rcases maxCount_attained h with ⟨d, hd, hc⟩
  exact List.ne_nil_of_mem (mem_modes.2 ⟨hd, hc⟩)

theorem modeDate_spec {l : List ℤ} {m : ℤ} (h : modeDate l = some m) :
    m ∈ l ∧ (∀ d ∈ l, l.count d ≤ l.count m) ∧
      ∀ d ∈ l, l.count d = l.count m → m ≤ d := by
  rcases listMin_spec h with ⟨hmem, hle⟩
  rcases mem_modes.1 hmem with ⟨hml, hmc⟩
  refine ⟨hml, fun d hd => ?_, fun d hd hc => ?_⟩
  · rw [hmc]; exact count_le_maxCount hd
  · exact hle d (mem_modes.2 ⟨hd, by rw [hc, hmc]⟩)

theorem modeDate_ne_none {l : List ℤ} (h : l ≠ []) : ∃ m, modeDate l = some m :=
  listMin_ne_none (modes_ne_nil h)

theorem modeDate_eq_none_iff {l : List ℤ} : modeDate l = none ↔ l = [] := by
  constructor
  · intro h
    by_contra hne
    rcases modeDate_ne_none hne with ⟨m, hm⟩
    rw [h] at hm
    exact Option.noConfusion hm
  · rintro rfl; rfl

/-! ### Frame lemmas: each pipeline step touches one column -/

theorem forall_proj_map {β : Type} {f : Row → Row} {p : Row → β}
    (hf : ∀ r, p (f r) = p r) {t : List Row} {P : β → Prop}
    (h : ∀ r ∈ t, P (p r)) : ∀ r ∈ t.map f, P (p r) := by
  intro r hr
  rcases List.mem_map.1 hr with ⟨r0, h0, rfl⟩
  rw [hf]
  exact h r0 h0

theorem exists_proj_map {β : Type} {f : Row → Row} {p : Row → β}
    (hf : ∀ r, p (f r) = p r) {t : List Row} {P : β → Prop}
    (h : ∃ r ∈ t, P (p r)) : ∃ r ∈ t.map f, P (p r) := by
  rcases h with ⟨r0, h0, hP⟩
  exact ⟨f r0, List.mem_map_of_mem f h0, by rw [hf]; exact hP⟩

theorem forall_mem_filter {α : Type} {p : α → Bool} {l : List α} {P : α → Prop}
    (h : ∀ r ∈ l, P r) : ∀ r ∈ l.filter p, P r :=
  fun r hr => h r (List.mem_filter.1 hr).1

theorem forall_mem_fenceStep {t : List Row} {P : Row → Prop}
    (h : ∀ r ∈ t, P r) : ∀ r ∈ fenceStep t, P r := by
  rw [fenceStep]
  rcases fenceBounds t with _ | ⟨lo, hi⟩
  · exact h
  · exact forall_mem_filter h

theorem forall_mem_discountStep {t : List Row} {P : Row → Prop}
    (h : ∀ r ∈ t, P { r with discount := fillNum (coerceNum r.discount) 0 }) :
    ∀ r ∈ discountStep t, P r := by
  intro r hr
  rcases List.mem_map.1 hr with ⟨r0, h0, rfl⟩
  exact h r0 h0

theorem AllOrNone_transfer {proj : Row → NCell} {t t' : List Row}
    (hsub : ∀ r ∈ t', r ∈ t)
    (h : (∀ r ∈ t, (proj r).isMissing = false) ∨ ∀ r ∈ t, (proj r).isMissing = true) :
    (∀ r ∈ t', (proj r).isMissing = false) ∨ ∀ r ∈ t', (proj r).isMissing = true := by
  rcases h with h | h
  · exact Or.inl fun r hr => h r (hsub r hr)
  · exact Or.inr fun r hr => h r (hsub r hr)

theorem validDates_map {f : Row → Row} (hf : ∀ r, ((f r).date).day? = (r.date).day?)
    (t : List Row) : validDates (t.map f) = validDates t := by
  rw [validDates, validDates, List.filterMap_map]
  congr 1
  funext r
  exact hf r

/-! ### Elimination lemmas: what a successful step returns -/

theorem ageStep_elim {d t2 : List Row} (h : ageStep d = some t2) :
    (∀ r ∈ d, (r.age).isText = false) ∧
      t2 = d.map fun r => { r with age := fillWith (median (agesOf d)) r.age } := by
  rw [ageStep] at h
  split at h
  · exact Option.noConfusion h
  · rename_i hguard
    refine ⟨?_, (Option.some.inj h).symm⟩
    intro r hr
    by_contra htext
    exact hguard (List.any_eq_true.2 ⟨r, hr, by
      cases hx : (r.age).isText
      · exact absurd hx htext
      · exact rfl⟩)

theorem ageStep_of_no_text {d : List Row} (h : ∀ r ∈ d, (r.age).isText = false) :
    ageStep d = some (d.map fun r => { r with age := fillWith (median (agesOf d)) r.age }) := by
  rw [ageStep, if_neg]
  intro hany
  rcases List.any_eq_true.1 hany with ⟨r, hr, htext⟩
  rw [h r hr] at htext
  exact Bool.noConfusion htext

theorem dateStep_elim {t5 t6 : List Row} (h : dateStep t5 = some t6) :
    ∃ m, modeDate (validDates (t5.map coerceDate)) = some m ∧
      t6 = (t5.map coerceDate).map (fillDate m) := by
  rw [dateStep] at h
  rcases hm : modeDate (validDates (t5.map coerceDate)) with _ | m
  · rw [hm] at h
    exact Option.noConfusion h
  · rw [hm] at h
    exact ⟨m, rfl, (Option.some.inj h).symm⟩

theorem coerceDate_day? (r : Row) : (((coerceDate r).date)).day? = ((r.date)).day? := by
  rcases r with ⟨a, g, s, p, dt, c, di⟩
  cases dt <;> rfl

theorem validDates_coerce (t : List Row) :
    validDates (t.map coerceDate) = validDates t :=
  validDates_map coerceDate_day? t

theorem dateStep_eq_none_iff {t5 : List Row} :
    dateStep t5 = none ↔ ∀ r ∈ t5, (r.date).isValid = false := by
  rw [dateStep]
  rcases hm : modeDate (validDates (t5.map coerceDate)) with _ | m
  · simp only [true_iff]
    rw [modeDate_eq_none_iff, validDates_coerce, validDates,
      List.filterMap_eq_nil_iff] at hm
    intro r hr
    have := hm r hr
    rcases r with ⟨a, g, s, p, dt, c, di⟩
    cases dt
    · exact Option.noConfusion this
    · rfl
    · rfl
  · constructor
    · intro hcontra
      exact Option.noConfusion hcontra
    · intro hall
      exfalso
      have hnil : validDates (t5.map coerceDate) = [] := by
        rw [validDates_coerce, validDates, List.filterMap_eq_nil_iff]
        intro r hr
        have := hall r hr
        rcases r with ⟨a, g, s, p, dt, c, di⟩
        cases dt
        · exact Bool.noConfusion this
        · rfl
        · rfl
      rw [hnil] at hm
      exact Option.noConfusion hm

/-! ### Identity lemmas: each step fixes an already-clean table -/

theorem fillWith_num (m : Option ℚ) (q : ℚ) : fillWith m (NCell.num q) = NCell.num q := by
  cases m <;> rfl

theorem fillWith_none (c : NCell) : fillWith none c = c := rfl

theorem coerceNum_of_not_text {c : NCell} (h : c.isText = false) : coerceNum c = c := by
  cases c
  · rfl
  · exact Bool.noConfusion h
  · rfl

theorem ageStep_id {d : List Row} (htext : ∀ r ∈ d, (r.age).isText = false)
    (haon : (∀ r ∈ d, (r.age).isMissing = false) ∨ ∀ r ∈ d, (r.age).isMissing = true) :
    ageStep d = some d := by
  rw [ageStep_of_no_text htext]
  congr 1
  apply map_eq_self_of_mem
  intro r hr
  rcases haon with h | h
  · have hm := h r hr
    have ht := htext r hr
    rcases r with ⟨a, g, s, p, dt, c, di⟩
    cases a
    · rw [fillWith_num]
    · exact Bool.noConfusion ht
    · exact Bool.noConfusion hm
  · have hnil : agesOf d = [] := by
      rw [agesOf, List.filterMap_eq_nil_iff]
      intro r' hr'
      have hm := h r' hr'
      rcases hx : r'.age with q | s | _
      · rw [hx] at hm
        exact Bool.noConfusion hm
      · rfl
      · rfl
    rw [hnil]
    rw [show median [] = none from rfl, fillWith_none]

theorem genderFix_of_ne {g : String} (hne : g ≠ "") : genderFix (some g) = some g := by
  simp only [genderFix]
  rw [if_neg hne]

theorem genderStep_id {t : List Row}
    (h : ∀ r ∈ t, ∃ g, r.gender = some g ∧ g ≠ "") : genderStep t = t := by
  apply map_eq_self_of_mem
  intro r hr
  rcases h r hr with ⟨g, hg, hne⟩
  show { r with gender := genderFix r.gender } = r
  rw [hg, genderFix_of_ne hne, ← hg]

theorem salesStep_id {t : List Row} (htext : ∀ r ∈ t, (r.sales).isText = false)
    (haon : (∀ r ∈ t, (r.sales).isMissing = false) ∨ ∀ r ∈ t, (r.sales).isMissing = true) :
    salesStep t = t := by
  rw [salesStep]
  have hco : (t.map fun r => { r with sales := coerceNum r.sales }) = t := by
    apply map_eq_self_of_mem
    intro r hr
    show { r with sales := coerceNum r.sales } = r
    rw [coerceNum_of_not_text (htext r hr)]
  rw [hco]
  apply map_eq_self_of_mem
  intro r hr
  show { r with sales := fillWith (median (salesOf t)) r.sales } = r
  rcases haon with h | h
  · have hm := h r hr
    have ht := htext r hr
    rcases hx : r.sales with q | s | _
    · rw [fillWith_num, ← hx]
    · rw [hx] at ht
      exact Bool.noConfusion ht
    · rw [hx] at hm
      exact Bool.noConfusion hm
  · have hnil : salesOf t = [] := by
      rw [salesOf, List.filterMap_eq_nil_iff]
      intro r' hr'
      have hm := h r' hr'
      rcases hx : r'.sales with q | s | _
      · rw [hx] at hm
        exact Bool.noConfusion hm
      · rfl
      · rfl
    rw [hnil]
    rw [show median [] = none from rfl, fillWith_none]

theorem profitStep_id {t : List Row} (htext : ∀ r ∈ t, (r.profit).isText = false)
    (haon : (∀ r ∈ t, (r.profit).isMissing = false) ∨ ∀ r ∈ t, (r.profit).isMissing = true) :
    profitStep t = t := by
  rw [profitStep]
  have hco : (t.map fun r => { r with profit := coerceNum r.profit }) = t := by
    apply map_eq_self_of_mem
    intro r hr
    show { r with profit := coerceNum r.profit } = r
    rw [coerceNum_of_not_text (htext r hr)]
  rw [hco]
  apply map_eq_self_of_mem
  intro r hr
  show { r with profit := fillWith (median (profitsOf t)) r.profit } = r
  rcases haon with h | h
  · have hm := h r hr
    have ht := htext r hr
    rcases hx : r.profit with q | s | _
    · rw [fillWith_num, ← hx]
    · rw [hx] at ht
      exact Bool.noConfusion ht
    · rw [hx] at hm
      exact Bool.noConfusion hm
  · have hnil : profitsOf t = [] := by
      rw [profitsOf, List.filterMap_eq_nil_iff]
      intro r' hr'
      have hm := h r' hr'
      rcases hx : r'.profit with q | s | _
      · rw [hx] at hm
        exact Bool.noConfusion hm
      · rfl
      · rfl
    rw [hnil]
    rw [show median [] = none from rfl, fillWith_none]

theorem coerceDate_of_valid {r : Row} (h : (r.date).isValid = true) : coerceDate r = r := by
  rcases r with ⟨a, g, s, p, dt, c, di⟩
  cases dt
  · rfl
  · exact Bool.noConfusion h
  · exact Bool.noConfusion h

theorem fillDate_of_valid {m : ℤ} {r : Row} (h : (r.date).isValid = true) :
    fillDate m r = r := by
  rcases r with ⟨a, g, s, p, dt, c, di⟩
  cases dt
  · rfl
  · rfl
  · exact Bool.noConfusion h

theorem validDates_ne_nil {t : List Row} (h : ∀ r ∈ t, (r.date).isValid = true)
    (hne : t ≠ []) : validDates t ≠ [] := by
  intro hnil
  rw [validDates, List.filterMap_eq_nil_iff] at hnil
  rcases List.exists_mem_of_ne_nil t hne with ⟨r, hr⟩
  have h1 := h r hr
  have h2 := hnil r hr
  rcases r with ⟨a, g, s, p, dt, c, di⟩
  cases dt
  · exact Option.noConfusion h2
  · exact Bool.noConfusion h1
  · exact Bool.noConfusion h1

theorem dateStep_id {t : List Row} (h : ∀ r ∈ t, (r.date).isValid = true) (hne : t ≠ []) :
    dateStep t = some t := by
  have hco : t.map coerceDate = t :=
    map_eq_self_of_mem fun r hr => coerceDate_of_valid (h r hr)
  have hfill : t.map (fillDate ((modeDate (validDates t)).getD 0)) = t :=
    map_eq_self_of_mem fun r hr => fillDate_of_valid (h r hr)
  rcases modeDate_ne_none (validDates_ne_nil h hne) with ⟨m, hm⟩
  simp only [dateStep, hco, hm]
  congr 1
  exact map_eq_self_of_mem fun r hr => fillDate_of_valid (h r hr)

theorem categoryStep_id {t : List Row} (h : ∀ r ∈ t, (r.category).isSome = true) :
    categoryStep t = t :=
  List.filter_eq_self.2 h

theorem discountStep_id {t : List Row} (h : ∀ r ∈ t, ∃ q, r.discount = NCell.num q) :
    discountStep t = t := by
  apply map_eq_self_of_mem
  intro r hr
  rcases h r hr with ⟨q, hq⟩
  show { r with discount := fillNum (coerceNum r.discount) 0 } = r
  rw [hq]
  show { r with discount := NCell.num q } = r
  rw [← hq]

/-! ### The invariant a cleaned table satisfies -/

/-- What holds of every row of a table returned by `readCsvAndCleanData`. -/
def RowClean (r : Row) : Prop :=
  (r.age).isText = false ∧
  (∃ g, r.gender = some g ∧ g ≠ "") ∧
  (r.sales).isText = false ∧
  (r.profit).isText = false ∧
  (r.date).isValid = true ∧
  (r.category).isSome = true ∧
  ∃ q, r.discount = NCell.num q

/-- Either no entry of the column is missing, or all are (the latter only
happens when the whole input column was missing, so that the median used
for the fill was NaN). -/
def AllOrNone (proj : Row → NCell) (t : List Row) : Prop :=
  (∀ r ∈ t, (proj r).isMissing = false) ∨ ∀ r ∈ t, (proj r).isMissing = true

def TableClean (t : List Row) : Prop :=
  (∀ r ∈ t, RowClean r) ∧ AllOrNone Row.age t ∧ AllOrNone Row.sales t ∧
    AllOrNone Row.profit t

theorem TableClean_subset {t t' : List Row} (hsub : ∀ r ∈ t', r ∈ t)
    (h : TableClean t) : TableClean t' :=
  ⟨fun r hr => h.1 r (hsub r hr),
   AllOrNone_transfer hsub h.2.1,
   AllOrNone_transfer hsub h.2.2.1,
   AllOrNone_transfer hsub h.2.2.2⟩

/-- On a table satisfying the cleaning invariant, every per-column step
of a second run is the identity, so the whole second run only
de-duplicates and re-applies the outlier fence. -/
theorem clean_on_clean {u : List Row} (hc : TableClean u) (hne : u ≠ []) :
    readCsvAndCleanData u = some (fenceStep (dropDuplicates u)) := by
  have hsub : ∀ r ∈ dropDuplicates u, r ∈ u := fun r hr => mem_dropDuplicates.1 hr
  have hd : TableClean (dropDuplicates u) := TableClean_subset hsub hc
  have hdne : dropDuplicates u ≠ [] := dropDuplicates_ne_nil hne
  have hrows := hd.1
  have hage : ageStep (dropDuplicates u) = some (dropDuplicates u) :=
    ageStep_id (fun r hr => (hrows r hr).1) hd.2.1
  have hgender : genderStep (dropDuplicates u) = dropDuplicates u :=
    genderStep_id fun r hr => (hrows r hr).2.1
  have hsales : salesStep (dropDuplicates u) = dropDuplicates u :=
    salesStep_id (fun r hr => (hrows r hr).2.2.1) hd.2.2.1
  have hprofit : profitStep (dropDuplicates u) = dropDuplicates u :=
    profitStep_id (fun r hr => (hrows r hr).2.2.2.1) hd.2.2.2
  have hdate : dateStep (dropDuplicates u) = some (dropDuplicates u) :=
    dateStep_id (fun r hr => (hrows r hr).2.2.2.2.1) hdne
  have hcat : categoryStep (dropDuplicates u) = dropDuplicates u :=
    categoryStep_id fun r hr => (hrows r hr).2.2.2.2.2.1
  have hdisc : discountStep (dropDuplicates u) = dropDuplicates u :=
    discountStep_id fun r hr => (hrows r hr).2.2.2.2.2.2
  rw [readCsvAndCleanData, cleanedBeforeFence, hage, Option.some_bind, hgender, hsales,
    hprofit, hdate, Option.map_some', hcat, hdisc]
  rfl

/-! ### Pushing row properties through the tail of the pipeline -/

theorem clean_decomp {t u : List Row} (h : readCsvAndCleanData t = some u) :
    ∃ t2 t6, ageStep (dropDuplicates t) = some t2 ∧
      dateStep (profitStep (salesStep (genderStep t2))) = some t6 ∧
      u = fenceStep (discountStep (categoryStep t6)) := by
  rw [readCsvAndCleanData] at h
  rcases Option.map_eq_some'.1 h with ⟨v, hv, hu⟩
  rw [cleanedBeforeFence] at hv
  rcases Option.bind_eq_some.1 hv with ⟨t2, ht2, hrest⟩
  rcases Option.map_eq_some'.1 hrest with ⟨t6, ht6, hv'⟩
  exact ⟨t2, t6, ht2, ht6, by rw [← hu, ← hv']⟩

theorem push_t5 {t5 t6 : List Row} {m : ℤ}
    (ht6 : t6 = (t5.map coerceDate).map (fillDate m)) {P : Row → Prop}
    (hP : ∀ r ∈ t5, P r) (hdat : ∀ r d, P r → P { r with date := d }) :
    ∀ r ∈ t6, P r := by
  subst ht6
  simp only [List.forall_mem_map]
  intro r hr
  exact hdat _ _ (hdat _ _ (hP r hr))

theorem push_t4 {t4 t6 : List Row} {m : ℤ}
    (ht6 : t6 = ((profitStep t4).map coerceDate).map (fillDate m)) {P : Row → Prop}
    (hP : ∀ r ∈ t4, P r) (hpro : ∀ r c, P r → P { r with profit := c })
    (hdat : ∀ r d, P r → P { r with date := d }) : ∀ r ∈ t6, P r := by
  apply push_t5 ht6 ?_ hdat
  simp only [profitStep, List.forall_mem_map]
  intro r hr
  exact hpro _ _ (hpro _ _ (hP r hr))

theorem push_t3 {t3 t6 : List Row} {m : ℤ}
    (ht6 : t6 = ((profitStep (salesStep t3)).map coerceDate).map (fillDate m))
    {P : Row → Prop} (hP : ∀ r ∈ t3, P r)
    (hsal : ∀ r c, P r → P { r with sales := c })
    (hpro : ∀ r c, P r → P { r with profit := c })
    (hdat : ∀ r d, P r → P { r with date := d }) : ∀ r ∈ t6, P r := by
  apply push_t4 ht6 ?_ hpro hdat
  simp only [salesStep, List.forall_mem_map]
  intro r hr
  exact hsal _ _ (hsal _ _ (hP r hr))

theorem push_t2 {t2 t6 : List Row} {m : ℤ}
    (ht6 : t6 = ((profitStep (salesStep (genderStep t2))).map coerceDate).map (fillDate m))
    {P : Row → Prop} (hP : ∀ r ∈ t2, P r)
    (hgen : ∀ r g, P r → P { r with gender := g })
    (hsal : ∀ r c, P r → P { r with sales := c })
    (hpro : ∀ r c, P r → P { r with profit := c })
    (hdat : ∀ r d, P r → P { r with date := d }) : ∀ r ∈ t6, P r := by
  apply push_t3 ht6 ?_ hsal hpro hdat
  simp only [genderStep, List.forall_mem_map]
  intro r hr
  exact hgen _ _ (hP r hr)

theorem push_end {t6 u : List Row}
    (hu : u = fenceStep (discountStep (categoryStep t6))) {P : Row → Prop}
    (hP : ∀ r ∈ t6, P r)
    (hdisc : ∀ r c, P r → P { r with discount := c }) : ∀ r ∈ u, P r := by
  subst hu
  apply forall_mem_fenceStep
  apply forall_mem_discountStep
  intro r hr
  exact hdisc _ _ (hP r (List.mem_filter.1 hr).1)

/-! ### Per-cell facts used to establish the column invariants -/

theorem isText_fillWith (m : Option ℚ) (c : NCell) : (fillWith m c).isText = c.isText := by
  cases m <;> cases c <;> rfl

theorem isMissing_fillWith_some (q : ℚ) (c : NCell) :
    (fillWith (some q) c).isMissing = false := by
  cases c <;> rfl

theorem isText_coerceNum (c : NCell) : (coerceNum c).isText = false := by
  cases c <;> rfl

theorem coerceNum_of_isNum {c : NCell} (h : c.isNum = true) : coerceNum c = c := by
  cases c
  · rfl
  · exact Bool.noConfusion h
  · rfl

theorem genderFix_good (g : Option String) : ∃ g', genderFix g = some g' ∧ g' ≠ "" := by
  rcases g with _ | s
  · exact ⟨"Other", rfl, by decide⟩
  · by_cases hs : s = ""
    · refine ⟨"Other", ?_, by decide⟩
      simp only [genderFix]
      rw [if_pos hs]
    · refine ⟨s, ?_, hs⟩
      simp only [genderFix]
      rw [if_neg hs]

theorem date_good (m : ℤ) (r : Row) : ((fillDate m (coerceDate r)).date).isValid = true := by
  rcases r with ⟨a, g, s, p, dt, c, di⟩
  cases dt <;> rfl

theorem disc_good (r : Row) :
    ∃ q, ({ r with discount := fillNum (coerceNum r.discount) 0 } : Row).discount =
      NCell.num q := by
  rcases hx : r.discount with q | s | _
  · exact ⟨q, rfl⟩
  · exact ⟨0, rfl⟩
  · exact ⟨0, rfl⟩

/-! ### What each imputation stage establishes for its own column -/

theorem ageStep_text {d t2 : List Row} (h : ageStep d = some t2) :
    ∀ r ∈ t2, (r.age).isText = false := by
  rcases ageStep_elim h with ⟨hno, rfl⟩
  simp only [List.forall_mem_map]
  intro r hr
  show (fillWith (median (agesOf d)) r.age).isText = false
  rw [isText_fillWith]
  exact hno r hr

theorem ageStep_aon {d t2 : List Row} (h : ageStep d = some t2) : AllOrNone Row.age t2 := by
  rcases ageStep_elim h with ⟨hno, rfl⟩
  rcases hm : median (agesOf d) with _ | q
  · right
    simp only [List.forall_mem_map]
    intro r hr
    show (fillWith none r.age).isMissing = true
    rw [fillWith_none]
    have hnil : agesOf d = [] := median_eq_none_iff.1 hm
    rw [agesOf, List.filterMap_eq_nil_iff] at hnil
    have h1 := hnil r hr
    have h2 := hno r hr
    rcases hx : r.age with q | s | _
    · rw [hx] at h1
      exact Option.noConfusion h1
    · rw [hx] at h2
      exact Bool.noConfusion h2
    · rfl
  · left
    simp only [List.forall_mem_map]
    intro r hr
    show (fillWith (some q) r.age).isMissing = false
    exact isMissing_fillWith_some q r.age

theorem ageStep_filled {d t2 : List Row} (h : ageStep d = some t2)
    (hex : ∃ r ∈ d, (r.age).isNum = true) : ∀ r ∈ t2, (r.age).isMissing = false := by
  rcases ageStep_elim h with ⟨hno, rfl⟩
  rcases hex with ⟨r0, hr0, hn⟩
  have hmem : ∃ q0, q0 ∈ agesOf d := by
    rcases hx : r0.age with q | s | _
    · exact ⟨q, List.mem_filterMap.2 ⟨r0, hr0, by rw [hx]; rfl⟩⟩
    · rw [hx] at hn
      exact Bool.noConfusion hn
    · rw [hx] at hn
      exact Bool.noConfusion hn
  rcases hmem with ⟨q0, hq0⟩
  rcases median_ne_none (List.ne_nil_of_mem hq0) with ⟨mq, hmq⟩
  simp only [List.forall_mem_map]
  intro r hr
  show (fillWith (median (agesOf d)) r.age).isMissing = false
  rw [hmq, isMissing_fillWith_some]

theorem salesStep_eq (t3 : List Row) : salesStep t3 =
    (t3.map fun r => { r with sales := coerceNum r.sales }).map fun r =>
      { r with sales := (fillWith
          (median (salesOf (t3.map fun r => { r with sales := coerceNum r.sales })))
          r.sales) } := rfl

theorem sales_coerced_text (t3 : List Row) :
    ∀ r ∈ t3.map fun r => { r with sales := coerceNum r.sales }, (r.sales).isText = false := by
  simp only [List.forall_mem_map]
  intro r hr
  exact isText_coerceNum r.sales

theorem sales_fill_text {d : List Row} (hno : ∀ r ∈ d, (r.sales).isText = false) :
    ∀ r ∈ d.map fun r => { r with sales := fillWith (median (salesOf d)) r.sales },
      (r.sales).isText = false := by
  simp only [List.forall_mem_map]
  intro r hr
  show (fillWith (median (salesOf d)) r.sales).isText = false
  rw [isText_fillWith]
  exact hno r hr

theorem sales_fill_aon {d : List Row} (hno : ∀ r ∈ d, (r.sales).isText = false) :
    AllOrNone Row.sales
      (d.map fun r => { r with sales := fillWith (median (salesOf d)) r.sales }) := by
  rcases hm : median (salesOf d) with _ | q
  · right
    simp only [List.forall_mem_map]
    intro r hr
    show (fillWith none r.sales).isMissing = true
    rw [fillWith_none]
    have hnil : salesOf d = [] := median_eq_none_iff.1 hm
    rw [salesOf, List.filterMap_eq_nil_iff] at hnil
    have h1 := hnil r hr
    have h2 := hno r hr
    rcases hx : r.sales with q | s | _
    · rw [hx] at h1
      exact Option.noConfusion h1
    · rw [hx] at h2
      exact Bool.noConfusion h2
    · rfl
  · left
    simp only [List.forall_mem_map]
    intro r hr
    show (fillWith (some q) r.sales).isMissing = false
    exact isMissing_fillWith_some q r.sales

theorem sales_fill_filled {d : List Row} (hex : ∃ r ∈ d, (r.sales).isNum = true) :
    ∀ r ∈ d.map fun r => { r with sales := fillWith (median (salesOf d)) r.sales },
      (r.sales).isMissing = false := by
  rcases hex with ⟨r0, hr0, hn⟩
  have hmem : ∃ q0, q0 ∈ salesOf d := by
    rcases hx : r0.sales with q | s | _
    · exact ⟨q, List.mem_filterMap.2 ⟨r0, hr0, by rw [hx]; rfl⟩⟩
    · rw [hx] at hn
      exact Bool.noConfusion hn
    · rw [hx] at hn
      exact Bool.noConfusion hn
  rcases hmem with ⟨q0, hq0⟩
  rcases median_ne_none (List.ne_nil_of_mem hq0) with ⟨mq, hmq⟩
  simp only [List.forall_mem_map]
  intro r hr
  show (fillWith (median (salesOf d)) r.sales).isMissing = false
  rw [hmq, isMissing_fillWith_some]

theorem profitStep_eq (t4 : List Row) : profitStep t4 =
    (t4.map fun r => { r with profit := coerceNum r.profit }).map fun r =>
      { r with profit := (fillWith
          (median (profitsOf (t4.map fun r => { r with profit := coerceNum r.profit })))
          r.profit) } := rfl

theorem profit_coerced_text (t4 : List Row) :
    ∀ r ∈ t4.map fun r => { r with profit := coerceNum r.profit },
      (r.profit).isText = false := by
  simp only [List.forall_mem_map]
  intro r hr
  exact isText_coerceNum r.profit

theorem profit_fill_text {d : List Row} (hno : ∀ r ∈ d, (r.profit).isText = false) :
    ∀ r ∈ d.map fun r => { r with profit := fillWith (median (profitsOf d)) r.profit },
      (r.profit).isText = false := by
  simp only [List.forall_mem_map]
  intro r hr
  show (fillWith (median (profitsOf d)) r.profit).isText = false
  rw [isText_fillWith]
  exact hno r hr

theorem profit_fill_aon {d : List Row} (hno : ∀ r ∈ d, (r.profit).isText = false) :
    AllOrNone Row.profit
      (d.map fun r => { r with profit := fillWith (median (profitsOf d)) r.profit }) := by
  rcases hm : median (profitsOf d) with _ | q
  · right
    simp only [List.forall_mem_map]
    intro r hr
    show (fillWith none r.profit).isMissing = true
    rw [fillWith_none]
    have hnil : profitsOf d = [] := median_eq_none_iff.1 hm
    rw [profitsOf, List.filterMap_eq_nil_iff] at hnil
    have h1 := hnil r hr
    have h2 := hno r hr
    rcases hx : r.profit with q | s | _
    · rw [hx] at h1
      exact Option.noConfusion h1
    · rw [hx] at h2
      exact Bool.noConfusion h2
    · rfl
  · left
    simp only [List.forall_mem_map]
    intro r hr
    show (fillWith (some q) r.profit).isMissing = false
    exact isMissing_fillWith_some q r.profit

theorem profit_fill_filled {d : List Row} (hex : ∃ r ∈ d, (r.profit).isNum = true) :
    ∀ r ∈ d.map fun r => { r with profit := fillWith (median (profitsOf d)) r.profit },
      (r.profit).isMissing = false := by
  rcases hex with ⟨r0, hr0, hn⟩
  have hmem : ∃ q0, q0 ∈ profitsOf d := by
    rcases hx : r0.profit with q | s | _
    · exact ⟨q, List.mem_filterMap.2 ⟨r0, hr0, by rw [hx]; rfl⟩⟩
    · rw [hx] at hn
      exact Bool.noConfusion hn
    · rw [hx] at hn
      exact Bool.noConfusion hn
  rcases hmem with ⟨q0, hq0⟩
  rcases median_ne_none (List.ne_nil_of_mem hq0) with ⟨mq, hmq⟩
  simp only [List.forall_mem_map]
  intro r hr
  show (fillWith (median (profitsOf d)) r.profit).isMissing = false
  rw [hmq, isMissing_fillWith_some]

/-! ### The master invariant of `readCsvAndCleanData` -/

theorem clean_master {t u : List Row} (h : readCsvAndCleanData t = some u) :
    TableClean u ∧
    ((∃ r ∈ t, (r.age).isNum = true) → ∀ r ∈ u, (r.age).isMissing = false) ∧
    ((∃ r ∈ t, (r.sales).isNum = true) → ∀ r ∈ u, (r.sales).isMissing = false) ∧
    ((∃ r ∈ t, (r.profit).isNum = true) → ∀ r ∈ u, (r.profit).isMissing = false) := by
  rcases clean_decomp h with ⟨t2, t6, ht2, ht6, hu⟩
  rcases dateStep_elim ht6 with ⟨m, hmode, ht6eq⟩
  have pushA : ∀ {P : NCell → Prop}, (∀ r ∈ t2, P r.age) → ∀ r ∈ u, P r.age := by
    intro P hP
    exact push_end hu
      (push_t2 ht6eq hP (fun r g hp => hp) (fun r c hp => hp) (fun r c hp => hp)
        fun r dt hp => hp)
      fun r c hp => hp
  have pushG : ∀ {P : Option String → Prop},
      (∀ r ∈ genderStep t2, P r.gender) → ∀ r ∈ u, P r.gender := by
    intro P hP
    exact push_end hu
      (push_t3 ht6eq hP (fun r c hp => hp) (fun r c hp => hp) fun r dt hp => hp)
      fun r c hp => hp
  have pushS : ∀ {P : NCell → Prop},
      (∀ r ∈ salesStep (genderStep t2), P r.sales) → ∀ r ∈ u, P r.sales := by
    intro P hP
    exact push_end hu (push_t4 ht6eq hP (fun r c hp => hp) fun r dt hp => hp)
      fun r c hp => hp
  have pushP : ∀ {P : NCell → Prop},
      (∀ r ∈ profitStep (salesStep (genderStep t2)), P r.profit) → ∀ r ∈ u, P r.profit := by
    intro P hP
    exact push_end hu (push_t5 ht6eq hP fun r dt hp => hp) fun r c hp => hp
  -- the seven per-row facts
  have hAgeText : ∀ r ∈ u, (r.age).isText = false :=
    pushA (P := fun c => c.isText = false) (ageStep_text ht2)
  have hGender : ∀ r ∈ u, ∃ g, r.gender = some g ∧ g ≠ "" := by
    apply pushG (P := fun x => ∃ g, x = some g ∧ g ≠ "")
    simp only [genderStep, List.forall_mem_map]
    intro r hr
    exact genderFix_good r.gender
  have hSalesText : ∀ r ∈ u, (r.sales).isText = false := by
    apply pushS (P := fun c => c.isText = false)
    rw [salesStep_eq]
    exact sales_fill_text (sales_coerced_text (genderStep t2))
  have hProfitText : ∀ r ∈ u, (r.profit).isText = false := by
    apply pushP (P := fun c => c.isText = false)
    rw [profitStep_eq]
    exact profit_fill_text (profit_coerced_text (salesStep (genderStep t2)))
  have hDate : ∀ r ∈ u, (r.date).isValid = true := by
    apply push_end (P := fun r => (r.date).isValid = true) hu ?_ fun r c hp => hp
    rw [ht6eq]
    simp only [List.forall_mem_map]
    intro r hr
    exact date_good m r
  have hCat : ∀ r ∈ u, (r.category).isSome = true := by
    rw [hu]
    apply forall_mem_fenceStep
    simp only [discountStep, List.forall_mem_map]
    intro r hr
    exact (List.mem_filter.1 hr).2
  have hDisc : ∀ r ∈ u, ∃ q, r.discount = NCell.num q := by
    rw [hu]
    apply forall_mem_fenceStep
    apply forall_mem_discountStep
    intro r hr
    exact disc_good r
  -- the three all-or-none facts
  have hAon : AllOrNone Row.age u := by
    rcases ageStep_aon ht2 with ha | ha
    · exact Or.inl (pushA (P := fun c => c.isMissing = false) ha)
    · exact Or.inr (pushA (P := fun c => c.isMissing = true) ha)
  have hSon : AllOrNone Row.sales u := by
    have := sales_fill_aon (sales_coerced_text (genderStep t2))
    rw [← salesStep_eq] at this
    rcases this with ha | ha
    · exact Or.inl (pushS (P := fun c => c.isMissing = false) ha)
    · exact Or.inr (pushS (P := fun c => c.isMissing = true) ha)
  have hPon : AllOrNone Row.profit u := by
    have := profit_fill_aon (profit_coerced_text (salesStep (genderStep t2)))
    rw [← profitStep_eq] at this
    rcases this with ha | ha
    · exact Or.inl (pushP (P := fun c => c.isMissing = false) ha)
    · exact Or.inr (pushP (P := fun c => c.isMissing = true) ha)
  refine ⟨⟨fun r hr => ⟨hAgeText r hr, hGender r hr, hSalesText r hr, hProfitText r hr,
    hDate r hr, hCat r hr, hDisc r hr⟩, hAon, hSon, hPon⟩, ?_, ?_, ?_⟩
  · intro hex
    apply pushA (P := fun c => c.isMissing = false)
    apply ageStep_filled ht2
    rcases hex with ⟨r0, hr0, hn⟩
    exact ⟨r0, mem_dropDuplicates.2 hr0, hn⟩
  · intro hex
    apply pushS (P := fun c => c.isMissing = false)
    rw [salesStep_eq]
    apply sales_fill_filled
    rcases hex with ⟨r0, hr0, hn⟩
    rcases ageStep_elim ht2 with ⟨_, ht2eq⟩
    have hex2 : ∃ r ∈ t2, (r.sales).isNum = true := by
      rw [ht2eq]
      exact ⟨_, List.mem_map_of_mem _ (mem_dropDuplicates.2 hr0), hn⟩
    rcases hex2 with ⟨r2, hr2, hn2⟩
    have hex3 : ∃ r ∈ genderStep t2, (r.sales).isNum = true := by
      rw [genderStep]
      exact ⟨_, List.mem_map_of_mem _ hr2, hn2⟩
    rcases hex3 with ⟨r1, hr1, hn1⟩
    refine ⟨{ r1 with sales := coerceNum r1.sales }, List.mem_map_of_mem _ hr1, ?_⟩
    show (coerceNum r1.sales).isNum = true
    rw [coerceNum_of_isNum hn1]
    exact hn1
  · intro hex
    apply pushP (P := fun c => c.isMissing = false)
    rw [profitStep_eq]
    apply profit_fill_filled
    rcases hex with ⟨r0, hr0, hn⟩
    rcases ageStep_elim ht2 with ⟨_, ht2eq⟩
    have hex2 : ∃ r ∈ t2, (r.profit).isNum = true := by
      rw [ht2eq]
      exact ⟨_, List.mem_map_of_mem _ (mem_dropDuplicates.2 hr0), hn⟩
    rcases hex2 with ⟨r2, hr2, hn2⟩
    have hex3 : ∃ r ∈ genderStep t2, (r.profit).isNum = true := by
      rw [genderStep]
      exact ⟨_, List.mem_map_of_mem _ hr2, hn2⟩
    rcases hex3 with ⟨r3, hr3, hn3⟩
    have hex4 : ∃ r ∈ salesStep (genderStep t2), (r.profit).isNum = true := by
      rw [salesStep_eq]
      exact ⟨_, List.mem_map_of_mem _ (List.mem_map_of_mem _ hr3), hn3⟩
    rcases hex4 with ⟨r1, hr1, hn1⟩
    refine ⟨{ r1 with profit := coerceNum r1.profit }, List.mem_map_of_mem _ hr1, ?_⟩
    show (coerceNum r1.profit).isNum = true
    rw [coerceNum_of_isNum hn1]
    exact hn1

/-! ### Row counts through the pipeline -/

theorem length_ageStep {d t2 : List Row} (h : ageStep d = some t2) :
    t2.length = d.length := by
  rcases ageStep_elim h with ⟨_, rfl⟩
  exact List.length_map _ _

theorem length_genderStep (t : List Row) : (genderStep t).length = t.length :=
  List.length_map _ _

theorem length_salesStep (t : List Row) : (salesStep t).length = t.length := by
  rw [salesStep_eq, List.length_map, List.length_map]

theorem length_profitStep (t : List Row) : (profitStep t).length = t.length := by
  rw [profitStep_eq, List.length_map, List.length_map]

theorem length_dateStep {t5 t6 : List Row} (h : dateStep t5 = some t6) :
    t6.length = t5.length := by
  rcases dateStep_elim h with ⟨m, _, rfl⟩
  rw [List.length_map, List.length_map]

theorem length_discountStep (t : List Row) : (discountStep t).length = t.length :=
  List.length_map _ _

theorem length_categoryStep_le (t : List Row) : (categoryStep t).length ≤ t.length :=
  List.length_filter_le _ _

theorem length_fenceStep_le (t : List Row) : (fenceStep t).length ≤ t.length := by
  rw [fenceStep]
  rcases fenceBounds t with _ | ⟨lo, hi⟩
  · exact le_refl _
  · exact List.length_filter_le _ _

theorem length_dropDuplicates_le (t : List Row) : (dropDuplicates t).length ≤ t.length :=
  (dropDuplicates_sublist t).length_le

theorem clean_length_le {t u : List Row} (h : readCsvAndCleanData t = some u) :
    u.length ≤ t.length := by
  rcases clean_decomp h with ⟨t2, t6, ht2, ht6, rfl⟩
  calc (fenceStep (discountStep (categoryStep t6))).length
      ≤ (discountStep (categoryStep t6)).length := length_fenceStep_le _
    _ = (categoryStep t6).length := length_discountStep _
    _ ≤ t6.length := length_categoryStep_le _
    _ = (profitStep (salesStep (genderStep t2))).length := length_dateStep ht6
    _ = (salesStep (genderStep t2)).length := length_profitStep _
    _ = (genderStep t2).length := length_salesStep _
    _ = t2.length := length_genderStep _
    _ = (dropDuplicates t).length := length_ageStep ht2
    _ ≤ t.length := length_dropDuplicates_le t

/-! ### Cell conversion helpers for stating the claims -/

theorem isMissing_false_of_valid {d : DCell} (h : d.isValid = true) :
    d.isMissing = false := by
  cases d
  · rfl
  · rfl
  · exact Bool.noConfusion h

theorem isMissing_false_of_num {c : NCell} (h : ∃ q, c = NCell.num q) :
    c.isMissing = false := by
  rcases h with ⟨q, rfl⟩
  rfl

/-! ### Characterizing when the cleaner fails -/

theorem ageStep_eq_none_iff {d : List Row} :
    ageStep d = none ↔ ∃ r ∈ d, (r.age).isText = true := by
  rw [ageStep]
  split
  · rename_i hg
    rcases List.any_eq_true.1 hg with ⟨r, hr, ht⟩
    exact iff_of_true rfl ⟨r, hr, ht⟩
  · rename_i hg
    exact iff_of_false (fun hc => Option.noConfusion hc)
      fun ⟨r, hr, ht⟩ => hg (List.any_eq_true.2 ⟨r, hr, ht⟩)

theorem day?_eq_none_iff {d : DCell} : d.day? = none ↔ d.isValid = false := by
  cases d <;> simp [DCell.day?, DCell.isValid]

theorem validDates_eq_nil_iff {v : List Row} :
    validDates v = [] ↔ ∀ r ∈ v, (r.date).isValid = false := by
  rw [validDates, List.filterMap_eq_nil_iff]
  constructor
  · intro h r hr
    exact day?_eq_none_iff.1 (h r hr)
  · intro h r hr
    exact day?_eq_none_iff.2 (h r hr)

theorem validDates_genderStep (t : List Row) :
    validDates (genderStep t) = validDates t := by
  refine validDates_map ?_ t
  intro r
  rfl

theorem validDates_salesStep (t : List Row) :
    validDates (salesStep t) = validDates t := by
  rw [salesStep_eq]
  refine (validDates_map ?_ _).trans (validDates_map ?_ _)
  · intro r
    rfl
  · intro r
    rfl

theorem validDates_profitStep (t : List Row) :
    validDates (profitStep t) = validDates t := by
  rw [profitStep_eq]
  refine (validDates_map ?_ _).trans (validDates_map ?_ _)
  · intro r
    rfl
  · intro r
    rfl

theorem validDates_t5 {t t2 : List Row} (ht2 : ageStep (dropDuplicates t) = some t2) :
    validDates (profitStep (salesStep (genderStep t2))) = validDates (dropDuplicates t) := by
  rcases ageStep_elim ht2 with ⟨_, rfl⟩
  rw [validDates_profitStep, validDates_salesStep, validDates_genderStep]
  refine validDates_map ?_ _
  intro r
  rfl

theorem cleanedBeforeFence_eq_none_iff (t : List Row) : cleanedBeforeFence t = none ↔
    (∃ r ∈ t, (r.age).isText = true) ∨ ∀ r ∈ t, (r.date).isValid = false := by
  rw [cleanedBeforeFence]
  rcases hA : ageStep (dropDuplicates t) with _ | t2
  · simp only [Option.none_bind]
    rcases ageStep_eq_none_iff.1 hA with ⟨r, hr, ht⟩
    exact iff_of_true trivial (Or.inl ⟨r, mem_dropDuplicates.1 hr, ht⟩)
  · simp only [Option.some_bind]
    have hVD := validDates_t5 hA
    rcases hD : dateStep (profitStep (salesStep (genderStep t2))) with _ | t6
    · simp only [Option.map_none']
      refine iff_of_true trivial (Or.inr ?_)
      have hall := dateStep_eq_none_iff.1 hD
      have h1 : validDates (dropDuplicates t) = [] := by
        rw [← hVD]
        exact validDates_eq_nil_iff.2 hall
      have h2 := validDates_eq_nil_iff.1 h1
      exact fun r hr => h2 r (mem_dropDuplicates.2 hr)
    · simp only [Option.map_some']
      refine iff_of_false (fun hc => Option.noConfusion hc) ?_
      rintro (⟨r, hr, ht⟩ | hall)
      · rcases ageStep_elim hA with ⟨hno, _⟩
        rw [hno r (mem_dropDuplicates.2 hr)] at ht
        exact Bool.noConfusion ht
      · have h2 : ∀ r ∈ dropDuplicates t, (r.date).isValid = false :=
          fun r hr => hall r (mem_dropDuplicates.1 hr)
        have h1 : validDates (profitStep (salesStep (genderStep t2))) = [] := by
          rw [hVD]
          exact validDates_eq_nil_iff.2 h2
        have hcontra := dateStep_eq_none_iff.2 (validDates_eq_nil_iff.1 h1)
        rw [hD] at hcontra
        exact Option.noConfusion hcontra

theorem clean_eq_none_iff (t : List Row) : readCsvAndCleanData t = none ↔
    (∃ r ∈ t, (r.age).isText = true) ∨ ∀ r ∈ t, (r.date).isValid = false := by
  rw [readCsvAndCleanData, ← cleanedBeforeFence_eq_none_iff]
  rcases cleanedBeforeFence t with _ | v
  · simp
  · simp

/-! ### The claims -/

section

attribute [local semireducible] Rat.mul Rat.inv Rat.add Rat.sub Rat.ofScientific

/-- Claim C1, counterexample: on a table whose Age column is entirely
missing, the run succeeds (the Date column has a mode), but the Age
median is NaN, `fillna(NaN)` is a no-op, and the returned table still
has a missing Age — contradicting "the table returned by
readCsvAndCleanData has no missing values in its Age, …". -/
theorem claim1_counterexample :
    readCsvAndCleanData exMissingAge = some outMissingAge ∧
    ∃ r ∈ outMissingAge, (r.age).isMissing = true := by decide

/-- Claim C1, amended: provided each of the Age, Sales and Profit
columns of the input contains at least one numeric-coercible entry, the
cleaned table has no missing value in Age, Sales, Profit, Date or
Discount, and every row has a non-missing Category. -/
theorem claim1_amended : ∀ t u, readCsvAndCleanData t = some u →
    (∃ r ∈ t, (r.age).isNum = true) → (∃ r ∈ t, (r.sales).isNum = true) →
    (∃ r ∈ t, (r.profit).isNum = true) →
    ∀ r ∈ u, (r.age).isMissing = false ∧ (r.sales).isMissing = false ∧
      (r.profit).isMissing = false ∧ (r.date).isMissing = false ∧
      (r.discount).isMissing = false ∧ (r.category).isSome = true := by
  intro t u h hA hS hP r hr
  rcases clean_master h with ⟨⟨hrows, _, _, _⟩, fA, fS, fP⟩
  rcases hrows r hr with ⟨_, _, _, _, hdate, hcat, hdisc⟩
  exact ⟨fA hA r hr, fS hS r hr, fP hP r hr, isMissing_false_of_valid hdate,
    isMissing_false_of_num hdisc, hcat⟩

/-- Claim C1, witness: the amended theorem applied to the nine-row table
`exFence`, whose numeric columns all carry numbers. -/
theorem claim1_witness :
    readCsvAndCleanData exFence = some outFence ∧
    ((mkRow (NCell.num 1) (some "F") (NCell.num 0) (NCell.num 1) (DCell.date 0)
        (some "A") (NCell.num 0)).age.isMissing = false ∧
      (mkRow (NCell.num 1) (some "F") (NCell.num 0) (NCell.num 1) (DCell.date 0)
        (some "A") (NCell.num 0)).sales.isMissing = false ∧
      (mkRow (NCell.num 1) (some "F") (NCell.num 0) (NCell.num 1) (DCell.date 0)
        (some "A") (NCell.num 0)).profit.isMissing = false ∧
      (mkRow (NCell.num 1) (some "F") (NCell.num 0) (NCell.num 1) (DCell.date 0)
        (some "A") (NCell.num 0)).date.isMissing = false ∧
      (mkRow (NCell.num 1) (some "F") (NCell.num 0) (NCell.num 1) (DCell.date 0)
        (some "A") (NCell.num 0)).discount.isMissing = false ∧
      (mkRow (NCell.num 1) (some "F") (NCell.num 0) (NCell.num 1) (DCell.date 0)
        (some "A") (NCell.num 0)).category.isSome = true) :=
  ⟨by decide, claim1_amended exFence outFence (by decide) (by decide) (by decide)
    (by decide) _ (by decide)⟩

/-- Claim C2, counterexample: on `exFence` the cleaner returns
`outFence`, whose Sales column is `[0,0,0,0,0,0,10,10]`; the quartile
fence computed over that *final* column is `[-15/4, 25/4]`, and the
Sales value 10 lies outside it — the final table is not a fixed point of
the fencing rule. -/
theorem claim2_counterexample :
    readCsvAndCleanData exFence = some outFence ∧
    fenceBounds outFence = some (-15/4, 25/4) ∧
    ∃ r ∈ outFence, r.sales = NCell.num 10 ∧ ¬((10 : ℚ) ≤ 25/4) := by decide

/-- Claim C2, amended: every Sales value of the returned table lies
within `[Q1 - 1.5*IQR, Q3 + 1.5*IQR]` where Q1 and Q3 are computed over
the Sales column of the table *before* the fence is applied (the fully
imputed table), not over the final table. -/
theorem claim2_amended : ∀ input u lo hi, cleanedBeforeFence input = some u →
    fenceBounds u = some (lo, hi) →
    readCsvAndCleanData input = some (fenceStep u) ∧
    ∀ r ∈ fenceStep u, ∀ q, r.sales = NCell.num q → lo ≤ q ∧ q ≤ hi := by
  intro input u lo hi hc hb
  refine ⟨by rw [readCsvAndCleanData, hc]; rfl, ?_⟩
  intro r hr q hq
  rw [fenceStep, hb] at hr
  have hcond := (List.mem_filter.1 hr).2
  rw [hq] at hcond
  simp only [fenceKeep] at hcond
  rw [Bool.not_eq_true', Bool.or_eq_false_iff, decide_eq_false_iff_not,
    decide_eq_false_iff_not] at hcond
  exact ⟨not_lt.1 hcond.1, not_lt.1 hcond.2⟩

/-- Claim C2, witness: the amended theorem applied to `exFence` (whose
pre-fence table is `exFence` itself, with fence `[-15, 25]`), evaluated
at the row with Sales 10. -/
theorem claim2_witness :
    readCsvAndCleanData exFence = some (fenceStep exFence) ∧
    ((-15 : ℚ) ≤ 10 ∧ (10 : ℚ) ≤ 25) :=
  ⟨(claim2_amended exFence exFence (-15) 25 (by decide) (by decide)).1,
    (claim2_amended exFence exFence (-15) 25 (by decide) (by decide)).2
      (mkRow (NCell.num 7) (some "F") (NCell.num 10) (NCell.num 1) (DCell.date 0)
        (some "A") (NCell.num 0)) (by decide) 10 (by decide)⟩

/-- Claim C3, counterexample: the cleaner maps `exFence` to the
eight-row `outFence`, but run again on `outFence` it returns the
six-row `outFence2`: re-applying the outlier fence on the already-fenced
Sales column drops the two Sales-10 rows, so the second run does not
leave the table unchanged. -/
theorem claim3_counterexample :
    readCsvAndCleanData exFence = some outFence ∧
    readCsvAndCleanData outFence = some outFence2 ∧
    outFence2 ≠ outFence ∧ outFence2.length < outFence.length := by decide

/-- Claim C3, amended: on a nonempty output of a first run, a second run
succeeds, changes no cell values, and only removes rows: it returns
exactly the de-duplicated table with the outlier fence re-applied
(imputation can have made distinct rows equal, and re-fencing can drop
further rows); every surviving row is a row of the first output.  (On an
empty first output the second run fails in the Date step.) -/
theorem claim3_amended : ∀ input t, readCsvAndCleanData input = some t → t ≠ [] →
    readCsvAndCleanData t = some (fenceStep (dropDuplicates t)) ∧
    ∀ r ∈ fenceStep (dropDuplicates t), r ∈ t := by
  intro input t h hne
  refine ⟨clean_on_clean (clean_master h).1 hne, ?_⟩
  intro r hr
  have hsub : ∀ x ∈ fenceStep (dropDuplicates t), x ∈ dropDuplicates t :=
    forall_mem_fenceStep (P := fun x => x ∈ dropDuplicates t) fun x hx => hx
  exact mem_dropDuplicates.1 (hsub r hr)

/-- Claim C3, witness: the amended theorem applied to the first-run
output `outFence`. -/
theorem claim3_witness :
    readCsvAndCleanData outFence = some (fenceStep (dropDuplicates outFence)) ∧
    ∀ r ∈ fenceStep (dropDuplicates outFence), r ∈ outFence :=
  claim3_amended exFence outFence (by decide) (by decide)

/-- Claim C4: the cleaner fails exactly when the Age column contains a
non-coercible entry or no Date entry is parseable; in particular a
non-numeric Sales, Profit or Discount entry never causes failure — the
coercing conversion turns it into a missing value instead. -/
theorem claim4_failure_characterization :
    (∀ t : List Row, readCsvAndCleanData t = none ↔
      (∃ r ∈ t, (r.age).isText = true) ∨ ∀ r ∈ t, (r.date).isValid = false) ∧
    ∀ s, coerceNum (NCell.text s) = NCell.missing := by
  exact ⟨clean_eq_none_iff, fun s => rfl⟩

/-- Claim C4, witness: the characterization applied to a table with a
non-coercible Age entry: the run fails. -/
theorem claim4_witness : readCsvAndCleanData exBadAge = none :=
  (claim4_failure_characterization.1 exBadAge).mpr (by decide)

/-- Claim C5, counterexample: in `exModalTie` the valid dates are day 20
(encountered first) and day 10, each occurring once.  The specification
prescribes the first-encountered value (day 20) for the tie, but the
code fills the unparseable entry with `mode()[0]` = day 10, the smallest
of the tied values. -/
theorem claim5_counterexample :
    readCsvAndCleanData exModalTie = some outModalTie ∧
    modeFirstEncountered (validDates (exModalTie.map coerceDate)) = some 20 ∧
    (∃ r ∈ outModalTie, r.age = NCell.num 1 ∧ r.date = DCell.date 10) ∧
    DCell.date (10 : ℤ) ≠ DCell.date 20 := by decide

/-- Claim C5, amended: every missing or unparseable Date entry is
replaced by a most frequently occurring valid date value, with ties
broken in favor of the *smallest* (earliest) such value — pandas
`mode()` returns the tied modes sorted ascending and `[0]` selects the
first — not the first-encountered one. -/
theorem claim5_amended : ∀ t5 t6, dateStep t5 = some t6 →
    ∃ m, m ∈ validDates t5 ∧
      (∀ d ∈ validDates t5, (validDates t5).count d ≤ (validDates t5).count m) ∧
      (∀ d ∈ validDates t5, (validDates t5).count d = (validDates t5).count m → m ≤ d) ∧
      t6 = (t5.map coerceDate).map (fillDate m) := by
  intro t5 t6 h
  rcases dateStep_elim h with ⟨m, hmode, ht6⟩
  rw [validDates_coerce] at hmode
  rcases modeDate_spec hmode with ⟨h1, h2, h3⟩
  exact ⟨m, h1, h2, h3, ht6⟩

/-- Claim C5, witness: the amended theorem applied to `exModalTie`. -/
theorem claim5_witness :
    ∃ m, m ∈ validDates exModalTie ∧
      (∀ d ∈ validDates exModalTie,
        (validDates exModalTie).count d ≤ (validDates exModalTie).count m) ∧
      (∀ d ∈ validDates exModalTie,
        (validDates exModalTie).count d = (validDates exModalTie).count m → m ≤ d) ∧
      outModalTie = (exModalTie.map coerceDate).map (fillDate m) :=
  claim5_amended exModalTie outModalTie (by decide)

/-- Claim C6: in the table returned by performDataWrangling, every row's
Profit Margin equals its Profit divided by its Sales (stated for rows
whose Sales is a number other than 0; at Sales = 0 the floating-point
source produces an unguarded infinity). -/
theorem claim6_profit_margin : ∀ t : List Row, ∀ w ∈ performDataWrangling t,
    ∀ p s, w.core.profit = NCell.num p → w.core.sales = NCell.num s → s ≠ 0 →
      w.profitMargin = NCell.num (p / s) := by
  intro t w hw p s hp hs hs0
  rcases List.mem_map.1 hw with ⟨r, hr, rfl⟩
  have hp' : r.profit = NCell.num p := hp
  have hs' : r.sales = NCell.num s := hs
  show cellDiv r.profit r.sales = NCell.num (p / s)
  rw [hp', hs']
  rfl

/-- Claim C6, witness: the theorem applied to the wrangled `outFence`,
at the row with Profit 1 and Sales 10: the margin is 1/10. -/
theorem claim6_witness :
    (⟨mkRow (NCell.num 7) (some "F") (NCell.num 10) (NCell.num 1) (DCell.date 0)
        (some "A") (NCell.num 0), NCell.num (1/10), "Not Mature"⟩ : WRow).profitMargin =
      NCell.num (1 / 10) :=
  claim6_profit_margin outFence _ (by decide) 1 10 (by decide) (by decide) (by decide)

/-- Claim C7, counterexample: `exFence` has no duplicate rows and no
missing Category, yet the cleaned table has fewer rows — the outlier
fence also decreases the row count, contradicting "the only operations
that ever decrease the row count are the removal of exact-duplicate rows
and the removal of rows with missing Category". -/
theorem claim7_counterexample :
    readCsvAndCleanData exFence = some outFence ∧ exFence.Nodup ∧
    (∀ r ∈ exFence, (r.category).isSome = true) ∧
    outFence.length < exFence.length := by decide

/-- Claim C7, amended: the cleaned row count never exceeds the input row
count, and the only operations that decrease it are duplicate removal,
the removal of rows with missing Category, and the Sales outlier fence —
every imputation step preserves the row count exactly. -/
theorem claim7_amended :
    (∀ input u, readCsvAndCleanData input = some u → u.length ≤ input.length) ∧
    (∀ d t2, ageStep d = some t2 → t2.length = d.length) ∧
    (∀ v : List Row, (genderStep v).length = v.length) ∧
    (∀ v : List Row, (salesStep v).length = v.length) ∧
    (∀ v : List Row, (profitStep v).length = v.length) ∧
    (∀ t5 t6, dateStep t5 = some t6 → t6.length = t5.length) ∧
    (∀ v : List Row, (discountStep v).length = v.length) ∧
    (∀ v : List Row, (fenceStep v).length ≤ v.length) ∧
    (∀ v : List Row, (dropDuplicates v).length ≤ v.length) ∧
    ∀ v : List Row, (categoryStep v).length ≤ v.length := by
  refine ⟨?_, ?_, length_genderStep, length_salesStep, length_profitStep, ?_,
    length_discountStep, length_fenceStep_le, length_dropDuplicates_le,
    length_categoryStep_le⟩
  · intro input u h
    exact clean_length_le h
  · intro d t2 h
    exact length_ageStep h
  · intro t5 t6 h
    exact length_dateStep h

/-- Claim C7, witness: the row-count bound applied to `exFence`. -/
theorem claim7_witness : outFence.length ≤ exFence.length :=
  claim7_amended.1 exFence outFence (by decide)

/-- Claim C8: the table emitted by the wrangling stage lists each
distinct non-missing Category exactly once, in ascending lexical order,
paired with the sum of the Discounts of that category's rows. -/
theorem claim8_discount_report : ∀ t : List Row,
    List.Sorted (· ≤ ·) ((discountByProducts t).map Prod.fst) ∧
    ((discountByProducts t).map Prod.fst).Nodup ∧
    (∀ c : String, c ∈ (discountByProducts t).map Prod.fst ↔ ∃ r ∈ t, r.category = some c) ∧
    ∀ p ∈ discountByProducts t,
      p.2 = ((t.filter fun r => r.category = some p.1).map discountVal).sum := by
  intro t
  have hkeys : (discountByProducts t).map Prod.fst =
      ((t.filterMap fun r => r.category).dedup).insertionSort (· ≤ ·) := by
    simp only [discountByProducts, List.map_map]
    exact List.map_id'' (fun c => rfl) _
  refine ⟨?_, ?_, ?_, ?_⟩
  · rw [hkeys]
    exact List.sorted_insertionSort _ _
  · rw [hkeys]
    exact ((List.perm_insertionSort _ _).nodup_iff).2 (List.nodup_dedup _)
  · intro c
    rw [hkeys, List.mem_insertionSort, List.mem_dedup, List.mem_filterMap]
  · intro p hp
    simp only [discountByProducts] at hp
    rcases List.mem_map.1 hp with ⟨c, _, rfl⟩
    rfl

/-- Claim C8, witness: the report properties applied to `outFence`,
whose single category "A" has total discount 0. -/
theorem claim8_witness :
    (("A", (0 : ℚ)) ∈ discountByProducts outFence) ∧
    (("A", (0 : ℚ)).2 =
      ((outFence.filter fun r => r.category = some ("A", (0 : ℚ)).1).map discountVal).sum) :=
  ⟨by decide, (claim8_discount_report outFence).2.2.2 ("A", (0 : ℚ)) (by decide)⟩

/-- Claim C9: performDataWrangling only adds the two derived columns:
the original seven columns of every row, the row count and the row order
are unchanged. -/
theorem claim9_wrangle_frame : ∀ t : List Row,
    (performDataWrangling t).map WRow.core = t ∧
    (performDataWrangling t).length = t.length := by
  intro t
  constructor
  · rw [performDataWrangling, List.map_map]
    exact List.map_id'' (fun r => rfl) t
  · exact List.length_map _ _

/-- Claim C10: performEDA only reads the table (its second component,
the table as the stage leaves it, is the input unchanged), so the table
the program serializes at the end is exactly the one
performDataWrangling returned. -/
theorem claim10_eda_frame :
    (∀ w : List WRow, (performEDA w).2 = w) ∧
    ∀ input, mainSerialized input = (readCsvAndCleanData input).map performDataWrangling := by
  constructor
  · intro w
    rfl
  · intro input
    rw [mainSerialized]
    rcases readCsvAndCleanData input with _ | c
    · rfl
    · rfl

end

end CsvClean
